import Mathlib

/-!
Shallow embedding of the Poisson blending core of this repository
(header with namespace nanopb, function PoissonBlend, and the image
loading glue in app/main.cpp).

Modelling conventions:
* `unsigned int` values are natural numbers; every arithmetic step that
  can wrap in C++ is taken modulo `U32 = 2^32` exactly where the source
  computes it (coordinate decrements `x - 1` at `x = 0`, and the
  flattening `width * y + x`).
* float / double pixel arithmetic is modelled over `ℚ` (exact arithmetic,
  same expressions as the source); the gamma power functions of the I/O
  glue are modelled over `ℝ` with `Real.rpow`.
* `std::vector` reads are total via `List.getD`; an out-of-bounds read is
  undefined behaviour in the C++ source, so every theorem below either
  carries hypotheses making all reads in bounds, or (for the wraparound
  counterexamples) is a statement about the computed index itself.
* The Eigen solver is an explicit functional parameter of `PoissonBlend`:
  the source calls `solver.compute` / `solver.solve` and never inspects
  `solver.info()`, so the blend result is some function of whatever vector
  the solver hands back.
-/

namespace nanopb

/-- The modulus of `unsigned int` arithmetic, 2^32. -/
def U32 : ℕ := 4294967296

/-- Unsigned decrement: the value of `a - 1` computed on `unsigned int`
(for `a < U32`). -/
def udec (a : ℕ) : ℕ := (a + (U32 - 1)) % U32

/-- Pixel of three float channels (class vec3 of the source), channels as
exact rationals. -/
structure vec3 where
  x : ℚ
  y : ℚ
  z : ℚ
deriving DecidableEq

instance : Inhabited vec3 := ⟨⟨0, 0, 0⟩⟩

/-- Channel access `v[ic]` of the source (`0 ↦ x`, `1 ↦ y`, `2 ↦ z`). -/
def vec3.ch (v : vec3) (ic : ℕ) : ℚ :=
  if ic = 0 then v.x else if ic = 1 then v.y else v.z

/-- inline float clamp(float x): clamp to [0, 1], testing `1 < x` first
and then `x < 0`, exactly as the source. -/
def clamp {α : Type} [LinearOrder α] [Zero α] [One α] (a : α) : α :=
  if 1 < a then 1 else if a < 0 then 0 else a

/-- struct ImageData: pixel buffer plus dimensions. -/
structure ImageData where
  data : List vec3
  width : ℕ
  height : ℕ

/-- inline float vpq(...): the gradient function.  The source returns
`gdiff = gp - gq` and ignores both target-image arguments
(`fpstar`, `fqstar`); the gradient-mixing variant is commented out. -/
def vpq (fpstar fqstar gp gq : ℚ) : ℚ :=
  let fdiff := fpstar - fqstar
  let gdiff := gp - gq
  gdiff

/-- maskFlatten lambda: `maskImage.width * y + x` on unsigned ints. -/
def maskFlatten (w x y : ℕ) : ℕ := (w * y + x) % U32

/-- targetFlatten lambda: `targetImage.width * y + x` on unsigned ints. -/
def targetFlatten (w x y : ℕ) : ℕ := (w * y + x) % U32

/-- The literal 0.99 of the mask test, as the exact rational 99/100
(stored in normal form so that comparisons evaluate;
`maskRedThreshold_eq` below relates it to `99 / 100`). -/
def maskRedThreshold : ℚ := ⟨99, 100, by decide, by decide⟩

/-- isMaskPixel lambda: `maskImage.data[maskFlatten(x, y)][0] > 0.99`.
Strict comparison of the red channel against 0.99, after flattening the
(possibly wrapped) coordinates. -/
def isMaskPixel (mask : ImageData) (x y : ℕ) : Bool :=
  decide (maskRedThreshold < (mask.data.getD (maskFlatten mask.width x y) default).x)

/-- One row of the mask scan: the x with `isMaskPixel x y`, ascending,
paired with their row. -/
def rowInside (mask : ImageData) (y : ℕ) : List (ℕ × ℕ) :=
  ((List.range mask.width).filter (fun x => isMaskPixel mask x y)).map (fun x => (x, y))

/-- Mask coordinates of the first `n` rows that are inside the mask, in
the row-major scan order of the varMap construction loop. -/
def insideAux (mask : ImageData) : ℕ → List (ℕ × ℕ)
  | 0 => []
  | n + 1 => insideAux mask n ++ rowInside mask n

/-- All inside-mask coordinates in the row-major order in which the
varMap loop assigns unknown ids (`y` outer ascending, `x` inner
ascending). -/
def insideList (mask : ImageData) : List (ℕ × ℕ) :=
  insideAux mask mask.height

/-- `varMap.size()`: the number of unknowns. -/
def numUnknowns (mask : ImageData) : ℕ := (insideList mask).length

/-- Lookup `varMap[key]` for a key that is present: the id stored for a
flattened coordinate is its insertion position in the row-major scan,
i.e. its index in `insideList`.  (For an absent key, `std::map::operator[]`
would insert id 0 — in the source that can only happen after an
out-of-bounds mask read, i.e. after undefined behaviour; the model
returns the list length there.) -/
def varMapLookup (mask : ImageData) (key : ℕ) : ℕ :=
  (insideList mask).findIdx (fun p => decide (maskFlatten mask.width p.1 p.2 = key))

/-- The sanity check on mx / my at the top of PoissonBlend, on unsigned
ints: `mx > 0 && my > 0 && mx + maskW < targetW - 1 && my + maskH < targetH - 1`. -/
def validPlacement (maskW maskH tW tH mx my : ℕ) : Bool :=
  decide (0 < mx) && decide (0 < my) &&
  decide ((mx + maskW) % U32 < (tW + (U32 - 1)) % U32) &&
  decide ((my + maskH) % U32 < (tH + (U32 - 1)) % U32)

/-- The matrix-pass entries pushed for one unknown pixel at mask-local
`(lx, ly)` with row counter `irow`: the diagonal 4, then (in source
order) the up, right, down, left probes, each pushing -1 at the column
`varMap[maskFlatten(probe)]` when `isMaskPixel(probe)` holds.  The probe
coordinates are the unsigned values the source computes, so `ly - 1` at
`ly = 0` wraps to `U32 - 1`. -/
def rowEntries (mask : ImageData) (irow lx ly : ℕ) : List (ℕ × ℕ × ℚ) :=
  (irow, varMapLookup mask (maskFlatten mask.width lx ly), (4 : ℚ)) ::
  ((if isMaskPixel mask lx (udec ly) then
      [(irow, varMapLookup mask (maskFlatten mask.width lx (udec ly)), (-1 : ℚ))] else []) ++
   (if isMaskPixel mask (lx + 1) ly then
      [(irow, varMapLookup mask (maskFlatten mask.width (lx + 1) ly), (-1 : ℚ))] else []) ++
   (if isMaskPixel mask lx (ly + 1) then
      [(irow, varMapLookup mask (maskFlatten mask.width lx (ly + 1)), (-1 : ℚ))] else []) ++
   (if isMaskPixel mask (udec lx) ly then
      [(irow, varMapLookup mask (maskFlatten mask.width (udec lx) ly), (-1 : ℚ))] else []))

/-- The matrix pass over a tail of the scan order, with its starting row
counter. -/
def tripletsAux (mask : ImageData) : List (ℕ × ℕ) → ℕ → List (ℕ × ℕ × ℚ)
  | [], _ => []
  | p :: rest, irow => rowEntries mask irow p.1 p.2 ++ tripletsAux mask rest (irow + 1)

/-- The full triplet list `mt` built by the matrix pass (rows counted
from 0, pixels in row-major scan order). -/
def buildTriplets (mask : ImageData) : List (ℕ × ℕ × ℚ) :=
  tripletsAux mask (insideList mask) 0

/-- The right-hand-side entry `b[irow]` for the unknown pixel at
mask-local `(lx, ly)` and channel `ic`: the four vpq gradient terms (in
source order up, left, down, right) plus, for each direction whose probe
is not a mask pixel, the target value at that neighbour position (in
source order up, right, down, left).  All coordinate arithmetic is the
unsigned arithmetic of the source. -/
def bEntry (mask src tgt : ImageData) (mx my lx ly ic : ℕ) : ℚ :=
  let x := mx + lx
  let y := my + ly
  let v := src.data.getD (maskFlatten mask.width lx ly) default
  let u := tgt.data.getD (targetFlatten tgt.width x y) default
  let grad :=
    vpq (u.ch ic) ((tgt.data.getD (targetFlatten tgt.width x (udec y)) default).ch ic)
        (v.ch ic) ((src.data.getD (maskFlatten mask.width lx (udec ly)) default).ch ic)
    + vpq (u.ch ic) ((tgt.data.getD (targetFlatten tgt.width (udec x) y) default).ch ic)
        (v.ch ic) ((src.data.getD (maskFlatten mask.width (udec lx) ly) default).ch ic)
    + vpq (u.ch ic) ((tgt.data.getD (targetFlatten tgt.width x (y + 1)) default).ch ic)
        (v.ch ic) ((src.data.getD (maskFlatten mask.width lx (ly + 1)) default).ch ic)
    + vpq (u.ch ic) ((tgt.data.getD (targetFlatten tgt.width (x + 1) y) default).ch ic)
        (v.ch ic) ((src.data.getD (maskFlatten mask.width (lx + 1) ly) default).ch ic)
  grad
  + (if isMaskPixel mask lx (udec ly) then 0
     else (tgt.data.getD (targetFlatten tgt.width x (udec y)) default).ch ic)
  + (if isMaskPixel mask (lx + 1) ly then 0
     else (tgt.data.getD (targetFlatten tgt.width (x + 1) y) default).ch ic)
  + (if isMaskPixel mask lx (ly + 1) then 0
     else (tgt.data.getD (targetFlatten tgt.width x (y + 1)) default).ch ic)
  + (if isMaskPixel mask (udec lx) ly then 0
     else (tgt.data.getD (targetFlatten tgt.width (udec x) y) default).ch ic)

/-- The right-hand-side vector `b` for channel `ic`: one entry per
unknown, in scan (= id) order. -/
def bVector (mask src tgt : ImageData) (mx my ic : ℕ) : List ℚ :=
  (insideList mask).map (fun p => bEntry mask src tgt mx my p.1 p.2 ic)

/-- The first output loop: for every target pixel, push the three
gamma-encoded channel bytes and an opaque alpha byte.  The byte encoder
`enc` stands for `(unsigned char)(pow(c, gamma) * 255.0f)`. -/
def encodeImage (enc : ℚ → ℕ) : List vec3 → List ℕ
  | [] => []
  | v :: rest => enc v.x :: enc v.y :: enc v.z :: 255 :: encodeImage enc rest

/-- One write of the second output loop: overwrite the three colour bytes
of target pixel `(mx+lx, my+ly)` with the clamped, encoded solution
channels; the alpha byte at offset 3 is not touched. -/
def writePixel (tW mx my : ℕ) (enc : ℚ → ℕ) (c0 c1 c2 : ℚ) (lx ly : ℕ)
    (buf : List ℕ) : List ℕ :=
  let f := targetFlatten tW (mx + lx) (my + ly)
  ((buf.set (4 * f) (enc (clamp c0))).set (4 * f + 1) (enc (clamp c1))).set
    (4 * f + 2) (enc (clamp c2))

/-- The second output loop over the inside pixels in scan order: fetch
each pixel's id from varMap, read the three solution channels at that id,
and overwrite the corresponding bytes. -/
def compositeAux (mask : ImageData) (tW mx my : ℕ) (sols : ℕ → ℕ → ℚ)
    (enc : ℚ → ℕ) : List (ℕ × ℕ) → List ℕ → List ℕ
  | [], buf => buf
  | p :: rest, buf =>
      let i := varMapLookup mask (maskFlatten mask.width p.1 p.2)
      compositeAux mask tW mx my sols enc rest
        (writePixel tW mx my enc (sols 0 i) (sols 1 i) (sols 2 i) p.1 p.2 buf)

/-- inline bool PoissonBlend(...): the full blend.

`solve numUnknowns triplets b` stands for the Eigen factorization plus
solve of one channel (`solver.compute` on the matrix assembled from the
triplets, then `solver.solve(b)`); the source never inspects
`solver.info()`, so `solve` is an arbitrary function and no solver
outcome can influence the control flow.  `enc` is the gamma byte
encoder.  `outImage` is the caller-supplied output vector, appended to
(never cleared); `none` models `return false`, where the vector is left
untouched and no bytes are produced. -/
def PoissonBlend (mask src tgt : ImageData) (mx my : ℕ)
    (solve : ℕ → List (ℕ × ℕ × ℚ) → List ℚ → List ℚ) (enc : ℚ → ℕ)
    (outImage : List ℕ) : Option (List ℕ) :=
  if validPlacement mask.width mask.height tgt.width tgt.height mx my then
    let mt := buildTriplets mask
    let sol := fun ic => solve (numUnknowns mask) mt (bVector mask src tgt mx my ic)
    let base := outImage ++ encodeImage enc tgt.data
    some (compositeAux mask tgt.width mx my (fun ic i => (sol ic).getD i 0) enc
      (insideList mask) base)
  else none

/-- Gamma decode of one byte in loadImage (app/main.cpp):
`pow(raw / 255.0f, 1.0f / gamma)`, over the reals. -/
noncomputable def gammaDecode (gamma : ℝ) (raw : ℕ) : ℝ :=
  ((raw : ℝ) / 255) ^ (1 / gamma)

/-- Gamma encode of one channel in the output loop:
`(unsigned char)(pow(c, gamma) * 255.0f)` — truncation, over the reals. -/
noncomputable def gammaEncodeTrunc (gamma : ℝ) (c : ℝ) : ℤ :=
  ⌊c ^ gamma * 255⌋

/-- Modelled from the spec: the compositor encode formula as the spec
states it, `byte = round(clamp(channel)^gamma × 255)`, for comparison
with the truncating source encode. -/
noncomputable def gammaEncodeRound (gamma : ℝ) (c : ℝ) : ℤ :=
  round (clamp c ^ gamma * 255)

/-- Modelled from the spec: the count of mask pixels whose red channel is
at least 0.99 (the inclusive threshold the spec states), for comparison
with the strict threshold of the source. -/
def specInsideCount (mask : ImageData) : ℕ :=
  mask.data.countP (fun v => decide (maskRedThreshold ≤ v.x))

/-- Whether a mask-local coordinate pair is a mask pixel in the sense of
the spec: inside the mask bounds and classified as inside; anything
outside the bounds is not a mask pixel. -/
def inMask (mask : ImageData) (q : ℕ × ℕ) : Bool :=
  decide (q.1 < mask.width) && decide (q.2 < mask.height) && isMaskPixel mask q.1 q.2

/-- The four axis-aligned neighbours of a mask-local pixel, in the probe
order of the matrix pass (up, right, down, left), in plain (unwrapped)
coordinates. -/
def neighborsOf (p : ℕ × ℕ) : List (ℕ × ℕ) :=
  [(p.1, p.2 - 1), (p.1 + 1, p.2), (p.1, p.2 + 1), (p.1 - 1, p.2)]

/-- The unknown id the Indexer assigns to an inside pixel: its position
in the row-major scan order. -/
def unknownId (mask : ImageData) (q : ℕ × ℕ) : ℕ :=
  (insideList mask).findIdx (fun r => decide (r = q))

/-- Modelled from the spec: the matrix entries for one unknown pixel `p`
with id `i` — a diagonal entry (row i, col i, 4) and an off-diagonal
entry (row i, col id(q), -1) for each axis-aligned neighbour `q` that is
a mask pixel; non-mask neighbours contribute nothing. -/
def specRow (mask : ImageData) (i : ℕ) (p : ℕ × ℕ) : List (ℕ × ℕ × ℚ) :=
  (i, i, (4 : ℚ)) ::
    ((neighborsOf p).filter (fun q => inMask mask q)).map
      (fun q => (i, unknownId mask q, (-1 : ℚ)))

/-- Spec-side matrix pass over a tail of the scan order. -/
def specTripletsAux (mask : ImageData) : List (ℕ × ℕ) → ℕ → List (ℕ × ℕ × ℚ)
  | [], _ => []
  | p :: rest, i => specRow mask i p ++ specTripletsAux mask rest (i + 1)

/-- Modelled from the spec: the full matrix triplet list as §4.4
describes it. -/
def specTriplets (mask : ImageData) : List (ℕ × ℕ × ℚ) :=
  specTripletsAux mask (insideList mask) 0

/-- Modelled from the spec: the right-hand-side entry for the unknown
pixel at mask-local `(lx, ly)` — the four source gradient differences
plus the target boundary value for every neighbour that is not a mask
pixel, all in plain coordinates. -/
def specBEntry (mask src tgt : ImageData) (mx my lx ly ic : ℕ) : ℚ :=
  let s := fun qx qy => (src.data.getD (mask.width * qy + qx) default).ch ic
  let t := fun qx qy => (tgt.data.getD (tgt.width * qy + qx) default).ch ic
  let sp := s lx ly
  ((sp - s lx (ly - 1)) + (sp - s (lx - 1) ly) + (sp - s lx (ly + 1)) + (sp - s (lx + 1) ly))
  + (if inMask mask (lx, ly - 1) then 0 else t (mx + lx) (my + ly - 1))
  + (if inMask mask (lx + 1, ly) then 0 else t (mx + lx + 1) (my + ly))
  + (if inMask mask (lx, ly + 1) then 0 else t (mx + lx) (my + ly + 1))
  + (if inMask mask (lx - 1, ly) then 0 else t (mx + lx - 1) (my + ly))

/-- Every inside pixel keeps a distance of at least one pixel from the
mask's own border, so all four of its neighbours lie inside the mask
bounds.  This is the margin the source comments assume of its mask
images; it is not checked by the code. -/
def maskInterior (mask : ImageData) : Bool :=
  (insideList mask).all fun p =>
    decide (0 < p.1) && decide (p.1 + 1 < mask.width) &&
    decide (0 < p.2) && decide (p.2 + 1 < mask.height)

/-- A solver stand-in producing no values, as a failed factorization
would: the source never checks the solver state, so the blend consumes
whatever comes back. -/
def solve0 : ℕ → List (ℕ × ℕ × ℚ) → List ℚ → List ℚ := fun _ _ _ => []

/-- A trivial byte encoder, for closed evaluations where the gamma
encoding itself is irrelevant. -/
def enc0 : ℚ → ℕ := fun _ => 0

/-- Black pixel. -/
def vz : vec3 := ⟨0, 0, 0⟩

/-- Full-red pixel (inside the mask). -/
def vr : vec3 := ⟨1, 0, 0⟩

/-- 1×1 mask whose single pixel is inside. -/
def mask1 : ImageData := ⟨[vr], 1, 1⟩

/-- 1×1 mask whose single pixel has red channel exactly 0.99. -/
def mask099 : ImageData := ⟨[⟨maskRedThreshold, 0, 0⟩], 1, 1⟩

/-- 1×1 mask with no inside pixel. -/
def mask0 : ImageData := ⟨[vz], 1, 1⟩

/-- 2×4 mask whose inside pixels are (1,1) and (0,2): both touch the
mask border, so edge probes wrap around rows. -/
def maskCE : ImageData := ⟨[vz, vz, vz, vr, vr, vz, vz, vz], 2, 4⟩

/-- 3×3 mask whose single inside pixel is the centre (1,1): a mask with
the one-pixel interior margin. -/
def maskC : ImageData := ⟨[vz, vz, vz, vz, vr, vz, vz, vz, vz], 3, 3⟩

/-- 3×3 all-black target image. -/
def tgt3 : ImageData := ⟨List.replicate 9 vz, 3, 3⟩

/-- 4×4 all-black target image. -/
def tgt4 : ImageData := ⟨List.replicate 16 vz, 4, 4⟩

/-- 6×6 all-black target image. -/
def tgt6 : ImageData := ⟨List.replicate 36 vz, 6, 6⟩

/-- 3×3 all-black source image. -/
def src3 : ImageData := ⟨List.replicate 9 vz, 3, 3⟩

/-- 1×1 all-black source image. -/
def src1 : ImageData := ⟨[vz], 1, 1⟩

lemma U32_eq : U32 = 4294967296 := rfl

/-- The stored threshold is the rational 99/100, i.e. 0.99. -/
lemma maskRedThreshold_eq : maskRedThreshold = 99 / 100 := by
  unfold maskRedThreshold
  rw [Rat.mk'_eq_divInt, Rat.divInt_eq_div]
  norm_num

/-- Arithmetic characterization of the placement sanity check for
non-degenerate sizes. -/
lemma validPlacement_iff (maskW maskH tW tH mx my : ℕ)
    (hW : 1 ≤ tW) (hH : 1 ≤ tH) (htW : tW < U32) (htH : tH < U32)
    (hmx : mx + maskW < U32) (hmy : my + maskH < U32) :
    validPlacement maskW maskH tW tH mx my = true ↔
      (0 < mx ∧ 0 < my ∧ mx + maskW < tW - 1 ∧ my + maskH < tH - 1) := by
  simp only [validPlacement, Bool.and_eq_true, decide_eq_true_eq, U32_eq] at *
  omega

/-- C1 counterexample: a 3×3 mask with one inside pixel, validly placed
in a 6×6 target, blended with a solver that returns no values at all (as
a failed factorization would): the blend still reports success.  The
claim says a numerically failing solve yields ok=false with no output;
the source never inspects the solver state, so ok=true and output bytes
are produced for every possible solver outcome. -/
theorem C1_counterexample :
    (PoissonBlend maskC src3 tgt6 1 1 solve0 enc0 []).isSome = true := by
  decide

/-- C1 amended: blend returns ok=false exactly when the placement
validator rejects the offset; the solver outcome is never consulted, so
whether the blend reports success is unchanged under replacing the
solver by any other solver (in particular by a failing one), and output
bytes are produced whenever validation passes. -/
theorem C1_amended_solver_never_checked (mask src tgt : ImageData) (mx my : ℕ)
    (solve solve2 : ℕ → List (ℕ × ℕ × ℚ) → List ℚ → List ℚ) (enc : ℚ → ℕ)
    (out0 : List ℕ) :
    (PoissonBlend mask src tgt mx my solve enc out0 = none ↔
      validPlacement mask.width mask.height tgt.width tgt.height mx my = false) ∧
    (PoissonBlend mask src tgt mx my solve enc out0).isSome
      = (PoissonBlend mask src tgt mx my solve2 enc out0).isSome := by
  unfold PoissonBlend
  by_cases h : validPlacement mask.width mask.height tgt.width tgt.height mx my <;>
    simp [h]

/-- C2 counterexample: a 1×1 mask placed at (1,1) in a 3×3 target leaves
exactly a one-pixel margin on every side (footprint pixel (1,1), free
border ring around it), yet the validator rejects the offset and blend
returns no output: the code demands a two-pixel margin at the far
edges. -/
theorem C2_counterexample :
    (1 ≤ 1 ∧ 1 ≤ 1 ∧ 1 + mask1.width + 1 ≤ tgt3.width ∧
      1 + mask1.height + 1 ≤ tgt3.height) ∧
    validPlacement mask1.width mask1.height tgt3.width tgt3.height 1 1 = false ∧
    PoissonBlend mask1 src1 tgt3 1 1 solve0 enc0 [] = none := by
  decide

/-- C2 amended: the validator accepts exactly the offsets with mx ≥ 1,
my ≥ 1 and a margin of at least two pixels between the far end of the
mask footprint and the target's far edges (mx+maskW ≤ targetW−2 and
my+maskH ≤ targetH−2); a one-pixel far margin is rejected. -/
theorem C2_amended_validator_margin (maskW maskH tW tH mx my : ℕ)
    (hW : 1 ≤ tW) (hH : 1 ≤ tH) (htW : tW < U32) (htH : tH < U32)
    (hmx : mx + maskW < U32) (hmy : my + maskH < U32) :
    validPlacement maskW maskH tW tH mx my = true ↔
      (1 ≤ mx ∧ 1 ≤ my ∧ mx + maskW + 2 ≤ tW ∧ my + maskH + 2 ≤ tH) := by
  rw [validPlacement_iff maskW maskH tW tH mx my hW hH htW htH hmx hmy]
  omega

/-- C2 amended witness: a 1×1 mask at (1,1) in a 4×4 target has the
two-pixel far margin and is accepted. -/
theorem C2_amended_witness :
    (1 ≤ tgt4.width ∧ 1 ≤ tgt4.height ∧ tgt4.width < U32 ∧ tgt4.height < U32 ∧
      1 + mask1.width < U32 ∧ 1 + mask1.height < U32) ∧
    (validPlacement mask1.width mask1.height tgt4.width tgt4.height 1 1 = true ↔
      (1 ≤ 1 ∧ 1 ≤ 1 ∧ 1 + mask1.width + 2 ≤ tgt4.width ∧
        1 + mask1.height + 2 ≤ tgt4.height)) :=
  ⟨by decide,
   C2_amended_validator_margin mask1.width mask1.height tgt4.width tgt4.height 1 1
     (by decide) (by decide) (by decide) (by decide) (by decide) (by decide)⟩

/-- C5: for non-degenerate sizes, blend fails (returns none: ok=false,
nothing appended to the output vector, no system assembled) exactly when
mx = 0, or my = 0, or mx+maskW ≥ targetW−1, or my+maskH ≥ targetH−1. -/
theorem C5_fails_iff_validator_rejects (mask src tgt : ImageData) (mx my : ℕ)
    (solve : ℕ → List (ℕ × ℕ × ℚ) → List ℚ → List ℚ) (enc : ℚ → ℕ)
    (out0 : List ℕ)
    (hW : 1 ≤ tgt.width) (hH : 1 ≤ tgt.height)
    (htW : tgt.width < U32) (htH : tgt.height < U32)
    (hmx : mx + mask.width < U32) (hmy : my + mask.height < U32) :
    PoissonBlend mask src tgt mx my solve enc out0 = none ↔
      (mx = 0 ∨ my = 0 ∨ tgt.width - 1 ≤ mx + mask.width ∨
        tgt.height - 1 ≤ my + mask.height) := by
  have hval := validPlacement_iff mask.width mask.height tgt.width tgt.height
    mx my hW hH htW htH hmx hmy
  unfold PoissonBlend
  by_cases h : validPlacement mask.width mask.height tgt.width tgt.height mx my = true
  · rw [if_pos h]
    have h2 := hval.mp h
    constructor
    · intro hc
      exact absurd hc (by simp)
    · intro hc
      exact absurd hc (by omega)
  · rw [if_neg h]
    have h2 : ¬ (0 < mx ∧ 0 < my ∧ mx + mask.width < tgt.width - 1 ∧
        my + mask.height < tgt.height - 1) := fun hc => h (hval.mpr hc)
    constructor
    · intro _
      omega
    · intro _
      rfl

/-- C5 witness: mx = 0 with an otherwise fitting 1×1 mask in a 4×4
target makes blend return none, matching the disjunction. -/
theorem C5_witness :
    (1 ≤ tgt4.width ∧ 1 ≤ tgt4.height ∧ tgt4.width < U32 ∧ tgt4.height < U32 ∧
      0 + mask1.width < U32 ∧ 1 + mask1.height < U32) ∧
    (PoissonBlend mask1 src1 tgt4 0 1 solve0 enc0 [] = none ↔
      (0 = 0 ∨ 1 = 0 ∨ tgt4.width - 1 ≤ 0 + mask1.width ∨
        tgt4.height - 1 ≤ 1 + mask1.height)) :=
  ⟨by decide,
   C5_fails_iff_validator_rejects mask1 src1 tgt4 0 1 solve0 enc0 []
     (by decide) (by decide) (by decide) (by decide) (by decide) (by decide)⟩

/-- C3 counterexample: a 1×1 mask whose pixel's red channel is exactly
0.99.  The claim's inclusive threshold counts it as a mask pixel, but the
source's strict comparison rejects it, so isMaskPixel is false and
numUnknowns is 0 while the ≥-count is 1. -/
theorem C3_counterexample :
    maskRedThreshold = 99 / 100 ∧
    (99 : ℚ) / 100 ≤ (mask099.data.getD 0 default).x ∧
    isMaskPixel mask099 0 0 = false ∧
    numUnknowns mask099 = 0 ∧ specInsideCount mask099 = 1 := by
  refine ⟨maskRedThreshold_eq, ?_, ?_, ?_, ?_⟩
  · rw [← maskRedThreshold_eq]
    decide
  · decide
  · decide
  · decide

/-- C4 counterexample: a 1×1 mask whose single pixel (0,0) is inside.
During assembly the up probe from (0,0) has mask-local coordinates
(0, −1), i.e. (0, U32−1) after unsigned wraparound — one step outside the
mask bounds — and the classifier's buffer index for that probe,
maskFlatten(0, U32−1) = U32−1, is not smaller than the mask buffer
length 1: the probe indexes outside the mask pixel buffer instead of
returning false without dereferencing it. -/
theorem C4_counterexample :
    insideList mask1 = [(0, 0)] ∧
    isMaskPixel mask1 0 0 = true ∧
    mask1.data.length ≤ maskFlatten mask1.width 0 (udec 0) := by
  decide

/-- Membership in the partial scan: coordinates of an inside pixel in one
of the first `n` rows. -/
lemma mem_insideAux (mask : ImageData) : ∀ (n x y : ℕ),
    (x, y) ∈ insideAux mask n ↔
      (x < mask.width ∧ y < n ∧ isMaskPixel mask x y = true) := by
  intro n
  induction n with
  | zero => intro x y; simp [insideAux]
  | succ n ih =>
    intro x y
    simp only [insideAux, List.mem_append, ih, rowInside, List.mem_map,
      List.mem_filter, List.mem_range, Prod.mk.injEq]
    constructor
    · rintro (⟨h1, h2, h3⟩ | ⟨a, ⟨ha, hm⟩, rfl, rfl⟩)
      · exact ⟨h1, Nat.lt_succ_of_lt h2, h3⟩
      · exact ⟨ha, Nat.lt_succ_self n, hm⟩
    · rintro ⟨h1, h2, h3⟩
      rcases Nat.lt_succ_iff_lt_or_eq.mp h2 with h | rfl
      · exact Or.inl ⟨h1, h, h3⟩
      · exact Or.inr ⟨x, ⟨h1, h3⟩, rfl, rfl⟩

/-- Membership in the scan order: exactly the in-bounds coordinates the
classifier accepts. -/
lemma mem_insideList (mask : ImageData) (x y : ℕ) :
    (x, y) ∈ insideList mask ↔
      (x < mask.width ∧ y < mask.height ∧ isMaskPixel mask x y = true) :=
  mem_insideAux mask mask.height x y

/-- Row-major flattening is in range for in-bounds coordinates. -/
lemma flat_lt_of_bounds {w h x y : ℕ} (hx : x < w) (hy : y < h) :
    w * y + x < w * h := by
  calc w * y + x < w * y + w := by omega
  _ = w * (y + 1) := by ring
  _ ≤ w * h := Nat.mul_le_mul le_rfl (by omega)

/-- Small flatten values are unaffected by the unsigned modulus. -/
lemma maskFlatten_eq_of_lt {w x y : ℕ} (h : w * y + x < U32) :
    maskFlatten w x y = w * y + x := by
  simpa [maskFlatten] using Nat.mod_eq_of_lt h

/-- Small flatten values are unaffected by the unsigned modulus. -/
lemma targetFlatten_eq_of_lt {w x y : ℕ} (h : w * y + x < U32) :
    targetFlatten w x y = w * y + x := by
  simpa [targetFlatten] using Nat.mod_eq_of_lt h

/-- Unsigned decrement of a positive in-range value is plain
subtraction. -/
lemma udec_eq {a : ℕ} (h1 : 1 ≤ a) (h2 : a ≤ U32) : udec a = a - 1 := by
  simp only [udec, U32_eq] at *
  omega

/-- Counting over positions equals counting over elements. -/
lemma countP_range_getD {α : Type} (p : α → Bool) (d : α) :
    ∀ l : List α,
      (List.range l.length).countP (fun i => p (l.getD i d)) = l.countP p := by
  intro l
  induction l with
  | nil => simp
  | cons a t ih =>
    have h1 : ((fun i => p ((a :: t).getD i d)) ∘ Nat.succ)
        = (fun i => p (t.getD i d)) := by
      funext i
      simp
    rw [List.length_cons, List.range_succ_eq_map, List.countP_cons,
      List.countP_map, h1, ih, List.countP_cons]
    simp

/-- The number of unknowns collected from the first `n` rows equals the
count of accepted pixels among the first `width * n` buffer positions. -/
lemma insideAux_length (mask : ImageData)
    (hsz : mask.width * mask.height ≤ U32) :
    ∀ n, n ≤ mask.height →
      (insideAux mask n).length =
        (List.range (mask.width * n)).countP
          (fun i => decide (maskRedThreshold < (mask.data.getD i default).x)) := by
  intro n
  induction n with
  | zero => intro _; simp [insideAux]
  | succ n ih =>
    intro hn
    have hn2 : n ≤ mask.height := Nat.le_of_succ_le hn
    rw [insideAux, List.length_append, ih hn2]
    have hrow : (rowInside mask n).length =
        (List.range mask.width).countP (fun x => isMaskPixel mask x n) := by
      rw [rowInside, List.length_map, ← List.countP_eq_length_filter]
    rw [hrow]
    have hsplit : mask.width * (n + 1) = mask.width * n + mask.width := by ring
    rw [hsplit, List.range_add, List.countP_append, List.countP_map]
    congr 1
    apply List.countP_congr
    intro x hx
    have hxw : x < mask.width := List.mem_range.mp hx
    have hlt : mask.width * n + x < U32 := by
      have := flat_lt_of_bounds hxw (show n < mask.height by omega)
      omega
    simp only [Function.comp, isMaskPixel, maskFlatten, Nat.mod_eq_of_lt hlt]

/-- C3 amended: the classifier threshold is strict — isMaskPixel holds
iff the red channel strictly exceeds 0.99 — and numUnknowns counts
exactly the mask pixels with red channel strictly above 0.99. -/
theorem C3_amended_strict_threshold (mask : ImageData)
    (hlen : mask.data.length = mask.width * mask.height)
    (hsz : mask.width * mask.height ≤ U32) :
    (∀ x y, x < mask.width → y < mask.height →
      (isMaskPixel mask x y = true ↔
        maskRedThreshold < (mask.data.getD (mask.width * y + x) default).x)) ∧
    numUnknowns mask =
      mask.data.countP (fun v => decide (maskRedThreshold < v.x)) := by
  constructor
  · intro x y hx hy
    have hlt : mask.width * y + x < U32 :=
      lt_of_lt_of_le (flat_lt_of_bounds hx hy) hsz
    simp only [isMaskPixel, maskFlatten, Nat.mod_eq_of_lt hlt,
      decide_eq_true_eq]
  · calc numUnknowns mask
        = (List.range mask.data.length).countP
            (fun i => decide (maskRedThreshold < (mask.data.getD i default).x)) := by
          rw [numUnknowns, insideList, insideAux_length mask hsz _ le_rfl, hlen]
    _ = mask.data.countP (fun v => decide (maskRedThreshold < v.x)) :=
          countP_range_getD (fun v => decide (maskRedThreshold < v.x)) default
            mask.data

/-- C3 amended witness: on the 2×4 test mask the strict-threshold
equivalence and the strict count both hold concretely. -/
theorem C3_amended_witness :
    (maskCE.data.length = maskCE.width * maskCE.height ∧
      maskCE.width * maskCE.height ≤ U32) ∧
    (isMaskPixel maskCE 1 1 = true ↔
      maskRedThreshold < (maskCE.data.getD (maskCE.width * 1 + 1) default).x) ∧
    numUnknowns maskCE =
      maskCE.data.countP (fun v => decide (maskRedThreshold < v.x)) :=
  ⟨⟨by decide, by decide⟩,
   (C3_amended_strict_threshold maskCE (by decide) (by decide)).1 1 1
     (by decide) (by decide),
   (C3_amended_strict_threshold maskCE (by decide) (by decide)).2⟩

/-- The interior-margin predicate, unpacked for one inside pixel. -/
lemma maskInterior_bounds {mask : ImageData} (hint : maskInterior mask = true)
    {p : ℕ × ℕ} (hp : p ∈ insideList mask) :
    0 < p.1 ∧ p.1 + 1 < mask.width ∧ 0 < p.2 ∧ p.2 + 1 < mask.height := by
  have h := List.all_eq_true.mp hint p hp
  simp only [Bool.and_eq_true, decide_eq_true_eq] at h
  tauto

/-- C4 amended: when no mask border pixel is inside, the four neighbour
probes of every inside pixel never wrap (the unsigned decrements are
plain decrements), and all four probe buffer indices are below the mask
buffer length: assembly never reads outside the mask pixel buffer. -/
theorem C4_amended_interior_probes_safe (mask : ImageData)
    (hlen : mask.data.length = mask.width * mask.height)
    (hsz : mask.width * mask.height ≤ U32)
    (hint : maskInterior mask = true) :
    ∀ p ∈ insideList mask,
      (udec p.2 = p.2 - 1 ∧ udec p.1 = p.1 - 1) ∧
      maskFlatten mask.width p.1 (udec p.2) < mask.data.length ∧
      maskFlatten mask.width (p.1 + 1) p.2 < mask.data.length ∧
      maskFlatten mask.width p.1 (p.2 + 1) < mask.data.length ∧
      maskFlatten mask.width (udec p.1) p.2 < mask.data.length := by
  intro p hp
  obtain ⟨h1, h2, h3, h4⟩ := maskInterior_bounds hint hp
  have hwpos : 1 ≤ mask.width := by omega
  have hhU : mask.height ≤ U32 := by
    calc mask.height = 1 * mask.height := (one_mul _).symm
    _ ≤ mask.width * mask.height := Nat.mul_le_mul hwpos le_rfl
    _ ≤ U32 := hsz
  have hwU : mask.width ≤ U32 := by
    calc mask.width = mask.width * 1 := (mul_one _).symm
    _ ≤ mask.width * mask.height := Nat.mul_le_mul le_rfl (by omega)
    _ ≤ U32 := hsz
  have hu2 : udec p.2 = p.2 - 1 := udec_eq h3 (by omega)
  have hu1 : udec p.1 = p.1 - 1 := udec_eq h1 (by omega)
  have hbound : ∀ qx qy, qx < mask.width → qy < mask.height →
      maskFlatten mask.width qx qy < mask.data.length := by
    intro qx qy hqx hqy
    have hq : mask.width * qy + qx < mask.width * mask.height :=
      flat_lt_of_bounds hqx hqy
    rw [maskFlatten_eq_of_lt (lt_of_lt_of_le hq hsz), hlen]
    exact hq
  refine ⟨⟨hu2, hu1⟩, ?_, ?_, ?_, ?_⟩
  · rw [hu2]
    exact hbound _ _ (by omega) (by omega)
  · exact hbound _ _ (by omega) (by omega)
  · exact hbound _ _ (by omega) (by omega)
  · rw [hu1]
    exact hbound _ _ (by omega) (by omega)

/-- C4 amended witness: the 3×3 centre-only mask has the interior
margin, and the four probes of its inside pixel (1,1) stay inside the
buffer. -/
theorem C4_amended_witness :
    (maskC.data.length = maskC.width * maskC.height ∧
      maskC.width * maskC.height ≤ U32 ∧
      maskInterior maskC = true ∧ (1, 1) ∈ insideList maskC) ∧
    ((udec 1 = 1 - 1 ∧ udec 1 = 1 - 1) ∧
      maskFlatten maskC.width 1 (udec 1) < maskC.data.length ∧
      maskFlatten maskC.width (1 + 1) 1 < maskC.data.length ∧
      maskFlatten maskC.width 1 (1 + 1) < maskC.data.length ∧
      maskFlatten maskC.width (udec 1) 1 < maskC.data.length) :=
  ⟨⟨by decide, by decide, by decide, by decide⟩,
   C4_amended_interior_probes_safe maskC (by decide) (by decide) (by decide)
     (1, 1) (by decide)⟩

/-- The scan order is strictly increasing in the row-major key. -/
lemma pairwise_insideAux (mask : ImageData) : ∀ n,
    (insideAux mask n).Pairwise
      (fun p q => mask.width * p.2 + p.1 < mask.width * q.2 + q.1) := by
  intro n
  induction n with
  | zero => simp [insideAux]
  | succ n ih =>
    rw [insideAux, List.pairwise_append]
    refine ⟨ih, ?_, ?_⟩
    · rw [rowInside, List.pairwise_map]
      have h2 := (List.pairwise_lt_range mask.width).filter
        (fun x => isMaskPixel mask x n)
      exact h2.imp (fun hab => by dsimp only; omega)
    · intro a ha b hb
      obtain ⟨ha1, ha2, _⟩ := (mem_insideAux mask n a.1 a.2).mp ha
      rw [rowInside] at hb
      simp only [List.mem_map, List.mem_filter, List.mem_range] at hb
      obtain ⟨xb, ⟨hxb, _⟩, rfl⟩ := hb
      have hstep : mask.width * a.2 + mask.width ≤ mask.width * n := by
        have := Nat.mul_le_mul (le_refl mask.width) (show a.2 + 1 ≤ n by omega)
        simpa [Nat.mul_succ] using this
      dsimp only
      omega

/-- Distinct scan entries have distinct flatten keys (the varMap keys are
unique). -/
lemma nodup_flat_insideList (mask : ImageData)
    (hsz : mask.width * mask.height ≤ U32) :
    ((insideList mask).map (fun p => maskFlatten mask.width p.1 p.2)).Nodup := by
  show ((insideList mask).map
    (fun p => maskFlatten mask.width p.1 p.2)).Pairwise (fun a b => a ≠ b)
  rw [List.pairwise_map]
  refine (pairwise_insideAux mask mask.height).imp_of_mem ?_
  intro a b ha hb hlt
  obtain ⟨ha1, ha2, _⟩ := (mem_insideAux mask mask.height a.1 a.2).mp ha
  obtain ⟨hb1, hb2, _⟩ := (mem_insideAux mask mask.height b.1 b.2).mp hb
  have hfa : maskFlatten mask.width a.1 a.2 = mask.width * a.2 + a.1 :=
    maskFlatten_eq_of_lt (lt_of_lt_of_le (flat_lt_of_bounds ha1 ha2) hsz)
  have hfb : maskFlatten mask.width b.1 b.2 = mask.width * b.2 + b.1 :=
    maskFlatten_eq_of_lt (lt_of_lt_of_le (flat_lt_of_bounds hb1 hb2) hsz)
  rw [hfa, hfb]
  omega

/-- Dropping one more element after a cons-shaped drop. -/
lemma drop_cons_of_drop {α : Type} : ∀ (k : ℕ) (l : List α) (p : α) (rest : List α),
    l.drop k = p :: rest → l.drop (k + 1) = rest := by
  intro k
  induction k with
  | zero =>
    intro l p rest h
    rw [List.drop_zero] at h
    subst h
    simp
  | succ k ih =>
    intro l p rest h
    cases l with
    | nil => simp at h
    | cons a t =>
      rw [List.drop_succ_cons] at h
      rw [List.drop_succ_cons]
      exact ih t p rest h

/-- In a list whose image under `f` has no duplicates, the first index
whose `f`-value matches that of the element at position `k` is `k`
itself. -/
lemma findIdx_of_drop {α β : Type} [DecidableEq β] (f : α → β) :
    ∀ (k : ℕ) (l : List α) (p : α) (rest : List α),
      (l.map f).Nodup → l.drop k = p :: rest →
      l.findIdx (fun a => decide (f a = f p)) = k := by
  intro k
  induction k with
  | zero =>
    intro l p rest hnd hdrop
    rw [List.drop_zero] at hdrop
    subst hdrop
    simp [List.findIdx_cons]
  | succ k ih =>
    intro l p rest hnd hdrop
    cases l with
    | nil => simp at hdrop
    | cons a t =>
      rw [List.drop_succ_cons] at hdrop
      have hpt : p ∈ t :=
        List.mem_of_mem_drop (hdrop ▸ List.mem_cons_self p rest)
      rw [List.map_cons, List.nodup_cons] at hnd
      have hne : f a ≠ f p := by
        intro h
        exact hnd.1 (h ▸ List.mem_map_of_mem f hpt)
      rw [List.findIdx_cons]
      have hfalse : decide (f a = f p) = false := by simp [hne]
      rw [hfalse]
      simp only [cond_false]
      rw [ih t p rest hnd.2 hdrop]

/-- The varMap lookup of the pixel at scan position `k` is `k`. -/
lemma varMapLookup_drop_self (mask : ImageData)
    (hsz : mask.width * mask.height ≤ U32) {k : ℕ} {p : ℕ × ℕ}
    {rest : List (ℕ × ℕ)} (hdrop : (insideList mask).drop k = p :: rest) :
    varMapLookup mask (maskFlatten mask.width p.1 p.2) = k := by
  unfold varMapLookup
  exact findIdx_of_drop (fun r => maskFlatten mask.width r.1 r.2) k _ p rest
    (nodup_flat_insideList mask hsz) hdrop

/-- The id of the pixel at scan position `k` is `k`. -/
lemma unknownId_drop (mask : ImageData)
    (hsz : mask.width * mask.height ≤ U32) {k : ℕ} {p : ℕ × ℕ}
    {rest : List (ℕ × ℕ)} (hdrop : (insideList mask).drop k = p :: rest) :
    unknownId mask p = k := by
  have hnd : ((insideList mask).map (fun r => r)).Nodup := by
    rw [List.map_id']
    exact List.Nodup.of_map _ (nodup_flat_insideList mask hsz)
  unfold unknownId
  exact findIdx_of_drop (fun r => r) k _ p rest hnd hdrop

/-- Looking up an inside pixel's flatten key in the varMap returns its
assigned unknown id. -/
lemma varMapLookup_eq_unknownId (mask : ImageData)
    (hsz : mask.width * mask.height ≤ U32) {q : ℕ × ℕ}
    (hq : q ∈ insideList mask) :
    varMapLookup mask (maskFlatten mask.width q.1 q.2) = unknownId mask q := by
  obtain ⟨n, hn⟩ := List.mem_iff_get.mp hq
  have hdrop : (insideList mask).drop n.1 =
      q :: (insideList mask).drop (n.1 + 1) := by
    rw [List.drop_eq_get_cons n.2, hn]
  rw [varMapLookup_drop_self mask hsz hdrop, unknownId_drop mask hsz hdrop]

/-- Filter-then-map over a four-element list, as an if-chain. -/
lemma filter_map_four {α β : Type} (P : α → Bool) (F : α → β) (q1 q2 q3 q4 : α) :
    (([q1, q2, q3, q4].filter P).map F) =
      (if P q1 then [F q1] else []) ++ (if P q2 then [F q2] else []) ++
      (if P q3 then [F q3] else []) ++ (if P q4 then [F q4] else []) := by
  rcases h1 : P q1 <;> rcases h2 : P q2 <;> rcases h3 : P q3 <;> rcases h4 : P q4 <;>
    simp [List.filter_cons, h1, h2, h3, h4]

/-- The matrix-pass row of the pixel at scan position `k` equals the
spec row: diagonal (k, k, 4), off-diagonals exactly at the in-mask
neighbours with their assigned ids — provided the mask has the interior
margin. -/
lemma rowEntries_eq_specRow (mask : ImageData)
    (hsz : mask.width * mask.height ≤ U32)
    (hint : maskInterior mask = true)
    {k : ℕ} {p : ℕ × ℕ} {rest : List (ℕ × ℕ)}
    (hdrop : (insideList mask).drop k = p :: rest) :
    rowEntries mask k p.1 p.2 = specRow mask k p := by
  have hp : p ∈ insideList mask :=
    List.mem_of_mem_drop (hdrop ▸ List.mem_cons_self p rest)
  obtain ⟨h1, h2, h3, h4⟩ := maskInterior_bounds hint hp
  have hwU : mask.width ≤ U32 := by
    calc mask.width = mask.width * 1 := (mul_one _).symm
    _ ≤ mask.width * mask.height := Nat.mul_le_mul le_rfl (by omega)
    _ ≤ U32 := hsz
  have hhU : mask.height ≤ U32 := by
    calc mask.height = 1 * mask.height := (one_mul _).symm
    _ ≤ mask.width * mask.height := Nat.mul_le_mul (by omega) le_rfl
    _ ≤ U32 := hsz
  have hu2 : udec p.2 = p.2 - 1 := udec_eq h3 (by omega)
  have hu1 : udec p.1 = p.1 - 1 := udec_eq h1 (by omega)
  have hdiag : varMapLookup mask (maskFlatten mask.width p.1 p.2) = k :=
    varMapLookup_drop_self mask hsz hdrop
  have hnb : ∀ qx qy, qx < mask.width → qy < mask.height →
      (if isMaskPixel mask qx qy then
        [(k, varMapLookup mask (maskFlatten mask.width qx qy), (-1 : ℚ))] else [])
      = (if inMask mask (qx, qy) then
        [(k, unknownId mask (qx, qy), (-1 : ℚ))] else []) := by
    intro qx qy hqx hqy
    have hin : inMask mask (qx, qy) = isMaskPixel mask qx qy := by
      simp [inMask, hqx, hqy]
    rw [hin]
    rcases hm : isMaskPixel mask qx qy with _ | _
    · simp
    · simp only [if_true]
      have hqmem : (qx, qy) ∈ insideList mask :=
        (mem_insideList mask qx qy).mpr ⟨hqx, hqy, hm⟩
      rw [varMapLookup_eq_unknownId mask hsz hqmem]
  simp only [rowEntries, specRow, neighborsOf, filter_map_four, hu2, hu1, hdiag,
    hnb p.1 (p.2 - 1) (by omega) (by omega),
    hnb (p.1 + 1) p.2 (by omega) (by omega),
    hnb p.1 (p.2 + 1) (by omega) (by omega),
    hnb (p.1 - 1) p.2 (by omega) (by omega)]

/-- The matrix pass from any scan position agrees with the spec pass. -/
lemma tripletsAux_eq_spec (mask : ImageData)
    (hsz : mask.width * mask.height ≤ U32)
    (hint : maskInterior mask = true) :
    ∀ (l : List (ℕ × ℕ)) (k : ℕ), (insideList mask).drop k = l →
      tripletsAux mask l k = specTripletsAux mask l k := by
  intro l
  induction l with
  | nil => intro k _; rfl
  | cons p rest ih =>
    intro k hdrop
    have hrow := rowEntries_eq_specRow mask hsz hint hdrop
    have hnext : (insideList mask).drop (k + 1) = rest :=
      drop_cons_of_drop k _ p rest hdrop
    simp only [tripletsAux, specTripletsAux]
    rw [hrow, ih (k + 1) hnext]

/-- C6 counterexample: the 2×4 mask with inside pixels (1,1) and (0,2).
The left probe from (0,2) wraps to buffer position 3 = pixel (1,1) of
the previous row, so the matrix pass emits the off-diagonal entry
(1, 0, -1): row 1 (unknown (0,2)) gets a -1 at the column of unknown
(1,1), although (1,1) is not among the four axis-aligned neighbours
(0,1), (1,2), (0,3), (-1,2) of (0,2) — and the out-of-bounds neighbour
(-1,2) is not a mask pixel, so per the claim that row should hold only
its diagonal entry. -/
theorem C6_counterexample :
    insideList maskCE = [(1, 1), (0, 2)] ∧
    unknownId maskCE (1, 1) = 0 ∧ unknownId maskCE (0, 2) = 1 ∧
    buildTriplets maskCE = [(0, 0, 4), (0, 1, -1), (1, 1, 4), (1, 0, -1)] ∧
    ((1 : ℤ), (1 : ℤ)) ∉ [((0 : ℤ), (1 : ℤ)), (1, 2), (0, 3), (-1, 2)] := by
  decide

/-- C6 amended: for masks with the interior margin (no inside pixel on
the mask border), the matrix pass emits, for the unknown pixel with id
i, exactly a diagonal entry (i, i, 4) followed by an off-diagonal entry
(i, id(q), -1) for each of its four axis-aligned neighbours q that is a
mask pixel, in probe order; non-mask neighbours contribute no entry, and
the row index used equals the assigned unknown id. -/
theorem C6_amended_matrix_assembly (mask : ImageData)
    (hsz : mask.width * mask.height ≤ U32)
    (hint : maskInterior mask = true) :
    buildTriplets mask = specTriplets mask := by
  simp only [buildTriplets, specTriplets]
  exact tripletsAux_eq_spec mask hsz hint (insideList mask) 0 (List.drop_zero _)

/-- C6 amended witness: the assembled triplets of the 3×3 centre-only
mask coincide with the spec triplets. -/
theorem C6_amended_witness :
    (maskC.width * maskC.height ≤ U32 ∧ maskInterior maskC = true) ∧
    buildTriplets maskC = specTriplets maskC :=
  ⟨⟨by decide, by decide⟩,
   C6_amended_matrix_assembly maskC (by decide) (by decide)⟩

/-- For an interior-margin mask and a validly placed blend, the
right-hand-side entry of an inside pixel computed by the source (with
its wrapped unsigned probes) equals the spec entry with plain
coordinates. -/
lemma bEntry_eq_spec (mask src tgt : ImageData) (mx my : ℕ)
    (hsz : mask.width * mask.height ≤ U32)
    (hint : maskInterior mask = true)
    (hmx : 1 ≤ mx) (hmy : 1 ≤ my)
    (hW : mx + mask.width + 1 ≤ tgt.width)
    (hH : my + mask.height + 1 ≤ tgt.height)
    (hT : tgt.width * tgt.height ≤ U32)
    {p : ℕ × ℕ} (hp : p ∈ insideList mask) (ic : ℕ) :
    bEntry mask src tgt mx my p.1 p.2 ic =
      specBEntry mask src tgt mx my p.1 p.2 ic := by
  obtain ⟨h1, h2, h3, h4⟩ := maskInterior_bounds hint hp
  have hwU : mask.width ≤ U32 := by
    calc mask.width = mask.width * 1 := (mul_one _).symm
    _ ≤ mask.width * mask.height := Nat.mul_le_mul le_rfl (by omega)
    _ ≤ U32 := hsz
  have hhU : mask.height ≤ U32 := by
    calc mask.height = 1 * mask.height := (one_mul _).symm
    _ ≤ mask.width * mask.height := Nat.mul_le_mul (by omega) le_rfl
    _ ≤ U32 := hsz
  have htWU : tgt.width ≤ U32 := by
    calc tgt.width = tgt.width * 1 := (mul_one _).symm
    _ ≤ tgt.width * tgt.height := Nat.mul_le_mul le_rfl (by omega)
    _ ≤ U32 := hT
  have htHU : tgt.height ≤ U32 := by
    calc tgt.height = 1 * tgt.height := (one_mul _).symm
    _ ≤ tgt.width * tgt.height := Nat.mul_le_mul (by omega) le_rfl
    _ ≤ U32 := hT
  have hu2 : udec p.2 = p.2 - 1 := udec_eq h3 (by omega)
  have hu1 : udec p.1 = p.1 - 1 := udec_eq h1 (by omega)
  have huy : udec (my + p.2) = my + p.2 - 1 := udec_eq (by omega) (by omega)
  have hux : udec (mx + p.1) = mx + p.1 - 1 := udec_eq (by omega) (by omega)
  have hmf : ∀ qx qy, qx < mask.width → qy < mask.height →
      maskFlatten mask.width qx qy = mask.width * qy + qx := by
    intro qx qy hqx hqy
    exact maskFlatten_eq_of_lt (lt_of_lt_of_le (flat_lt_of_bounds hqx hqy) hsz)
  have htf : ∀ qx qy, qx < tgt.width → qy < tgt.height →
      targetFlatten tgt.width qx qy = tgt.width * qy + qx := by
    intro qx qy hqx hqy
    exact targetFlatten_eq_of_lt (lt_of_lt_of_le (flat_lt_of_bounds hqx hqy) hT)
  have hin : ∀ qx qy, qx < mask.width → qy < mask.height →
      inMask mask (qx, qy) = isMaskPixel mask qx qy := by
    intro qx qy hqx hqy
    simp [inMask, hqx, hqy]
  simp only [bEntry, specBEntry, vpq, hu2, hu1, huy, hux,
    hmf p.1 p.2 (by omega) (by omega),
    hmf p.1 (p.2 - 1) (by omega) (by omega),
    hmf (p.1 - 1) p.2 (by omega) (by omega),
    hmf p.1 (p.2 + 1) (by omega) (by omega),
    hmf (p.1 + 1) p.2 (by omega) (by omega),
    htf (mx + p.1) (my + p.2) (by omega) (by omega),
    htf (mx + p.1) (my + p.2 - 1) (by omega) (by omega),
    htf (mx + p.1 - 1) (my + p.2) (by omega) (by omega),
    htf (mx + p.1) (my + p.2 + 1) (by omega) (by omega),
    htf (mx + p.1 + 1) (my + p.2) (by omega) (by omega),
    hin p.1 (p.2 - 1) (by omega) (by omega),
    hin (p.1 + 1) p.2 (by omega) (by omega),
    hin p.1 (p.2 + 1) (by omega) (by omega),
    hin (p.1 - 1) p.2 (by omega) (by omega)]

/-- C7: for interior-margin masks under a valid placement, the
right-hand-side vector entry of each unknown p is the sum over the four
neighbour directions of (source(p) − source(q)) plus, for every
neighbour q outside the mask, the target value at q's target position;
and the target-image arguments handed to the gradient function vpq never
influence its value. -/
theorem C7_rhs_and_gradient (mask src tgt : ImageData) (mx my : ℕ)
    (hsz : mask.width * mask.height ≤ U32)
    (hint : maskInterior mask = true)
    (hmx : 1 ≤ mx) (hmy : 1 ≤ my)
    (hW : mx + mask.width + 1 ≤ tgt.width)
    (hH : my + mask.height + 1 ≤ tgt.height)
    (hT : tgt.width * tgt.height ≤ U32) :
    (∀ ic, bVector mask src tgt mx my ic =
      (insideList mask).map (fun p => specBEntry mask src tgt mx my p.1 p.2 ic)) ∧
    (∀ a b a2 b2 gp gq : ℚ, vpq a b gp gq = vpq a2 b2 gp gq) := by
  constructor
  · intro ic
    apply List.map_congr_left
    intro p hp
    exact bEntry_eq_spec mask src tgt mx my hsz hint hmx hmy hW hH hT hp ic
  · intro a b a2 b2 gp gq
    rfl

/-- C7 witness: the refinement instantiated for the centre-only 3×3 mask
placed at (1,1) in the 6×6 target, channel 0, and a concrete gradient
evaluation whose target arguments differ. -/
theorem C7_witness :
    (maskC.width * maskC.height ≤ U32 ∧ maskInterior maskC = true ∧
      1 ≤ 1 ∧ 1 + maskC.width + 1 ≤ tgt6.width ∧
      1 + maskC.height + 1 ≤ tgt6.height ∧ tgt6.width * tgt6.height ≤ U32) ∧
    bVector maskC src3 tgt6 1 1 0 =
      (insideList maskC).map (fun p => specBEntry maskC src3 tgt6 1 1 p.1 p.2 0) ∧
    vpq 5 7 2 3 = vpq 11 13 2 3 :=
  ⟨⟨by decide, by decide, by decide, by decide, by decide, by decide⟩,
   (C7_rhs_and_gradient maskC src3 tgt6 1 1 (by decide) (by decide) (by decide)
     (by decide) (by decide) (by decide) (by decide)).1 0,
   (C7_rhs_and_gradient maskC src3 tgt6 1 1 (by decide) (by decide) (by decide)
     (by decide) (by decide) (by decide) (by decide)).2 5 7 11 13 2 3⟩

/-- C9: blending any mask with zero inside pixels under a valid
placement succeeds and returns exactly the gamma-re-encoded copy of the
target image with every alpha byte fully opaque (the first output loop),
for every solver and every byte encoder: no unknown exists, so the
second loop rewrites nothing. -/
theorem C9_empty_mask_identity (mask src tgt : ImageData) (mx my : ℕ)
    (solve : ℕ → List (ℕ × ℕ × ℚ) → List ℚ → List ℚ) (enc : ℚ → ℕ)
    (hvalid : validPlacement mask.width mask.height tgt.width tgt.height mx my
      = true)
    (hempty : insideList mask = []) :
    PoissonBlend mask src tgt mx my solve enc [] =
      some (encodeImage enc tgt.data) := by
  unfold PoissonBlend
  rw [if_pos hvalid, hempty]
  simp [compositeAux]

/-- C9 witness: the all-black 1×1 mask placed at (1,1) in the 4×4 target
yields exactly the re-encoded target. -/
theorem C9_witness :
    (validPlacement mask0.width mask0.height tgt4.width tgt4.height 1 1 = true ∧
      insideList mask0 = []) ∧
    PoissonBlend mask0 src1 tgt4 1 1 solve0 enc0 [] =
      some (encodeImage enc0 tgt4.data) :=
  ⟨⟨by decide, by decide⟩,
   C9_empty_mask_identity mask0 src1 tgt4 1 1 solve0 enc0 (by decide) (by decide)⟩

/-- The first output loop always emits 4 bytes per target pixel. -/
lemma encodeImage_length (enc : ℚ → ℕ) :
    ∀ l : List vec3, (encodeImage enc l).length = 4 * l.length := by
  intro l
  induction l with
  | nil => rfl
  | cons v rest ih =>
    simp only [encodeImage, List.length_cons, ih]
    omega

/-- One compositor write never changes the buffer length. -/
lemma writePixel_length (tW mx my : ℕ) (enc : ℚ → ℕ) (c0 c1 c2 : ℚ)
    (lx ly : ℕ) (buf : List ℕ) :
    (writePixel tW mx my enc c0 c1 c2 lx ly buf).length = buf.length := by
  simp [writePixel]

/-- The second output loop never changes the buffer length. -/
lemma compositeAux_length (mask : ImageData) (tW mx my : ℕ)
    (sols : ℕ → ℕ → ℚ) (enc : ℚ → ℕ) :
    ∀ (l : List (ℕ × ℕ)) (buf : List ℕ),
      (compositeAux mask tW mx my sols enc l buf).length = buf.length := by
  intro l
  induction l with
  | nil => intro buf; rfl
  | cons p rest ih =>
    intro buf
    simp only [compositeAux, ih, writePixel_length]

/-- Setting a different position leaves a getD lookup unchanged. -/
lemma getD_set_ne (l : List ℕ) (i j a : ℕ) (h : i ≠ j) :
    (l.set i a).getD j 0 = l.getD j 0 := by
  simp [List.getD_eq_getElem?_getD, List.getElem?_set_ne h]

/-- One compositor write touches only byte offsets 0, 1, 2 of a pixel:
every alpha byte (offset 3 mod 4) is untouched. -/
lemma writePixel_alpha (tW mx my : ℕ) (enc : ℚ → ℕ) (c0 c1 c2 : ℚ)
    (lx ly : ℕ) (buf : List ℕ) (f : ℕ) :
    (writePixel tW mx my enc c0 c1 c2 lx ly buf).getD (4 * f + 3) 0 =
      buf.getD (4 * f + 3) 0 := by
  simp only [writePixel]
  rw [getD_set_ne _ _ _ _ (by omega), getD_set_ne _ _ _ _ (by omega),
    getD_set_ne _ _ _ _ (by omega)]

/-- The second output loop never touches an alpha byte. -/
lemma compositeAux_alpha (mask : ImageData) (tW mx my : ℕ)
    (sols : ℕ → ℕ → ℚ) (enc : ℚ → ℕ) :
    ∀ (l : List (ℕ × ℕ)) (buf : List ℕ) (f : ℕ),
      (compositeAux mask tW mx my sols enc l buf).getD (4 * f + 3) 0 =
        buf.getD (4 * f + 3) 0 := by
  intro l
  induction l with
  | nil => intro buf f; rfl
  | cons p rest ih =>
    intro buf f
    simp only [compositeAux, ih, writePixel_alpha]

/-- Every alpha byte of the first output loop is 255. -/
lemma encodeImage_alpha (enc : ℚ → ℕ) :
    ∀ (l : List vec3) (f : ℕ), f < l.length →
      (encodeImage enc l).getD (4 * f + 3) 0 = 255 := by
  intro l
  induction l with
  | nil => intro f hf; simp at hf
  | cons v rest ih =>
    intro f hf
    cases f with
    | zero => rfl
    | succ f =>
      have hidx : 4 * (f + 1) + 3 = 4 * f + 3 + 1 + 1 + 1 + 1 := by ring
      rw [encodeImage, hidx, List.getD_cons_succ, List.getD_cons_succ,
        List.getD_cons_succ, List.getD_cons_succ]
      exact ih f (by simpa using hf)

/-- C10: PoissonBlend appends to the caller's vector without clearing
it: a successful blend grows the buffer by exactly 4·targetW·targetH
bytes (4 bytes per target pixel, in row-major pixel order by
construction of the two output loops), and with an empty initial vector
every alpha byte — offset 3 of each 4-byte RGBA group — is 255. -/
theorem C10_append_layout (mask src tgt : ImageData) (mx my : ℕ)
    (solve : ℕ → List (ℕ × ℕ × ℚ) → List ℚ → List ℚ) (enc : ℚ → ℕ)
    (out0 : List ℕ)
    (hdata : tgt.data.length = tgt.width * tgt.height)
    (hsome : (PoissonBlend mask src tgt mx my solve enc out0).isSome = true) :
    ((PoissonBlend mask src tgt mx my solve enc out0).getD []).length
        = out0.length + 4 * (tgt.width * tgt.height) ∧
    (out0 = [] → ∀ f, f < tgt.width * tgt.height →
      ((PoissonBlend mask src tgt mx my solve enc out0).getD []).getD
          (4 * f + 3) 0 = 255) := by
  by_cases h : validPlacement mask.width mask.height tgt.width tgt.height mx my
    = true
  · simp only [PoissonBlend, h, if_true, Option.getD_some]
    constructor
    · rw [compositeAux_length, List.length_append, encodeImage_length, hdata]
    · intro h0 f hf
      subst h0
      rw [compositeAux_alpha, List.nil_append]
      exact encodeImage_alpha enc tgt.data f (by omega)
  · simp only [PoissonBlend, h, if_false] at hsome
    simp at hsome

/-- C10 witness: the empty-mask blend into the 4×4 target, once with a
one-byte initial vector (length grows to 1 + 64) and once with an empty
vector (alpha byte of pixel 5 is 255). -/
theorem C10_witness :
    (tgt4.data.length = tgt4.width * tgt4.height ∧
      (PoissonBlend mask0 src1 tgt4 1 1 solve0 enc0 [7]).isSome = true ∧
      (PoissonBlend mask0 src1 tgt4 1 1 solve0 enc0 []).isSome = true) ∧
    ((PoissonBlend mask0 src1 tgt4 1 1 solve0 enc0 [7]).getD []).length
        = [7].length + 4 * (tgt4.width * tgt4.height) ∧
    ((PoissonBlend mask0 src1 tgt4 1 1 solve0 enc0 []).getD []).getD
        (4 * 5 + 3) 0 = 255 :=
  ⟨⟨by decide, by decide, by decide⟩,
   (C10_append_layout mask0 src1 tgt4 1 1 solve0 enc0 [7] (by decide)
     (by decide)).1,
   (C10_append_layout mask0 src1 tgt4 1 1 solve0 enc0 [] (by decide)
     (by decide)).2 rfl 5 (by decide)⟩

/-- C8: the gamma round trip over the exact reals: decoding a byte b in
0..255 with `(b/255)^(1/gamma)` and re-encoding — either with the
source's truncating `(unsigned char)(pow(c, gamma) * 255)` or with the
spec's `round(clamp(c)^gamma * 255)` — reproduces b exactly, for
gamma = 2.2. -/
theorem C8_gamma_round_trip (b : ℕ) (hb : b ≤ 255) :
    gammaEncodeTrunc 2.2 (gammaDecode 2.2 b) = (b : ℤ) ∧
    gammaEncodeRound 2.2 (gammaDecode 2.2 b) = (b : ℤ) := by
  have h22 : (2.2 : ℝ) = 11 / 5 := by norm_num
  have hx0 : (0 : ℝ) ≤ (b : ℝ) / 255 := by positivity
  have hx1 : (b : ℝ) / 255 ≤ 1 := by
    rw [div_le_one (by norm_num)]
    exact_mod_cast hb
  have hkey : (((b : ℝ) / 255) ^ ((1 : ℝ) / (11 / 5))) ^ ((11 : ℝ) / 5)
      = (b : ℝ) / 255 := by
    rw [← Real.rpow_mul hx0]
    norm_num
  have hd0 : (0 : ℝ) ≤ ((b : ℝ) / 255) ^ ((1 : ℝ) / (11 / 5)) :=
    Real.rpow_nonneg hx0 _
  have hd1 : ((b : ℝ) / 255) ^ ((1 : ℝ) / (11 / 5)) ≤ 1 :=
    Real.rpow_le_one hx0 hx1 (by norm_num)
  have hmul : ((b : ℝ) / 255) * 255 = (b : ℝ) := by
    rw [div_mul_cancel₀]
    norm_num
  constructor
  · rw [gammaEncodeTrunc, gammaDecode, h22, hkey, hmul]
    exact Int.floor_natCast b
  · rw [gammaEncodeRound, gammaDecode, h22]
    have hcl : clamp (((b : ℝ) / 255) ^ ((1 : ℝ) / (11 / 5)))
        = ((b : ℝ) / 255) ^ ((1 : ℝ) / (11 / 5)) := by
      rw [clamp, if_neg (by linarith), if_neg (by linarith)]
    rw [hcl, hkey, hmul]
    exact round_natCast b

/-- C8 witness: the round trip at byte value 7. -/
theorem C8_witness :
    (7 : ℕ) ≤ 255 ∧
    gammaEncodeTrunc 2.2 (gammaDecode 2.2 7) = (7 : ℤ) ∧
    gammaEncodeRound 2.2 (gammaDecode 2.2 7) = (7 : ℤ) :=
  ⟨by decide, (C8_gamma_round_trip 7 (by decide)).1,
   (C8_gamma_round_trip 7 (by decide)).2⟩
